import Mathlib

/-!
Verification of the trivia-game answer-resolution core.

JavaScript strings are modelled as lists of characters (`Str`).  Each Lean
definition below is a direct translation of the corresponding function of
`functions/utils.js` or of the fulfillment module (question selector, answer
shuffler, session state machine).  Randomness (`Math.random`) is modelled by
an explicit draw stream `g : Nat → Nat`; the JS expression
`Math.floor(Math.random() * (max - min + 1)) + min` becomes
`min + draw % (max - min + 1)`, so that quantifying over all streams covers
all executions.  The while-loop of the question selector is modelled with
explicit fuel because it is not structurally terminating.
-/

abbrev Str := List Char

def str (s : String) : Str := s.toList

/-- JS whitespace for `trim` (ASCII portion). -/
def isJsSpace (c : Char) : Bool :=
  c = ' ' ∨ c = '\t' ∨ c = '\n' ∨ c = '\r' ∨ c = Char.ofNat 11 ∨ c = Char.ofNat 12

/-- `value.toLowerCase()` (ASCII). -/
def jsToLower (s : Str) : Str := s.map Char.toLower

/-- `value.trim()`. -/
def jsTrim (s : Str) : Str :=
  ((s.dropWhile isJsSpace).reverse.dropWhile isJsSpace).reverse

/-- `value.split(sep)` for a single-character separator: JS semantics,
`"".split(c) = [""]`, consecutive separators yield empty parts. -/
def splitOn (sep : Char) : Str → List Str
  | [] => [[]]
  | c :: rest =>
    if c = sep then [] :: splitOn sep rest
    else
      match splitOn sep rest with
      | [] => [[c]]
      | p :: ps => (c :: p) :: ps

/-- `array.join(sep)` for a single-character separator. -/
def joinSep (sep : Char) : List Str → Str
  | [] => []
  | [p] => p
  | p :: ps => p ++ sep :: joinSep sep ps

/-- `array.indexOf(x)`: position of the first occurrence, or `-1`. -/
def jsIndexOf [DecidableEq α] : List α → α → Int
  | [], _ => -1
  | a :: rest, x =>
    if a = x then 0
    else
      let r := jsIndexOf rest x
      if r = -1 then -1 else r + 1

/-- `array.splice(i, 1)`: remove one element at `i`, JS index semantics
(a negative index counts from the end, clamped at 0). -/
def jsSpliceRemove1 (l : List α) (i : Int) : List α :=
  let start : Nat := if i < 0 then ((l.length : Int) + i).toNat else min i.toNat l.length
  l.take start ++ l.drop (start + 1)

/-- The separator used between synonyms: the pipe character. -/
def SEPARATOR : Char := '|'

/-- `utils.getRandomNumber(min, max)` given a raw draw `r` from the stream:
`Math.floor(Math.random() * (max - min + 1)) + min`. -/
def getRandomNumber (r lo hi : Nat) : Nat := lo + r % (hi + 1 - lo)

/-- The punctuation characters of the regex in `removePunctuationAndSpaces`:
`. , / # ! $ % ^ & * ; : { } = - _ backtick ~ ( )`. -/
def punctuationChars : List Char :=
  [46, 44, 47, 35, 33, 36, 37, 94, 38, 42, 59, 58, 123, 125,
   61, 45, 95, 96, 126, 40, 41].map Char.ofNat

/-- `utils.removePunctuationAndSpaces`. -/
def removePunctuationAndSpaces (value : Str) : Str :=
  (value.filter (fun c => ¬ c ∈ punctuationChars)).filter (fun c => c ≠ ' ')

/-- Levenshtein edit distance (the `levenshtein` package), written with fuel
so that it is structurally recursive; `lev` supplies enough fuel for the
recursion never to hit the fuel base case. -/
def levF : Nat → Str → Str → Nat
  | _, [], t => t.length
  | _, s, [] => s.length
  | fuel + 1, a :: s, b :: t =>
    min (min (levF fuel s (b :: t) + 1) (levF fuel (a :: s) t + 1))
      (levF fuel s t + (if a = b then 0 else 1))
  | 0, a :: s, b :: t => (a :: s).length + (b :: t).length

def lev (s t : Str) : Nat := levF (s.length + t.length) s t

/-- `utils.fuzzyMatch`. -/
def fuzzyMatch (value1 value2 : Str) : Bool :=
  let v1 := removePunctuationAndSpaces (jsToLower value1)
  let v2 := removePunctuationAndSpaces (jsToLower value2)
  (v1.length > 3 && v2.length > 3) && (lev v1 v2 ≤ 1)

/-- `utils.compareStrings`; the arguments may be `undefined`/`null`
(modelled as `none`), and an empty string is falsy. -/
def compareStrings (string1 string2 : Option Str) : Bool :=
  match string1, string2 with
  | some s1, some s2 =>
    if s1 = [] ∨ s2 = [] then false
    else jsTrim (jsToLower s1) = jsTrim (jsToLower s2)
  | _, _ => false

/-- `utils.getSynonyms`. -/
def getSynonyms (value : Str) : List Str :=
  if value = [] then [] else (splitOn SEPARATOR value).map jsTrim

/-- `utils.isTrueFalse`. -/
def isTrueFalse (answers : List Str) : Bool :=
  if answers.length = 2 then
    let answer1 := jsToLower (answers.getD 0 [])
    let answer2 := jsToLower (answers.getD 1 [])
    (answer1 = str "true" && answer2 = str "false") ||
      (answer2 = str "true" && answer1 = str "false")
  else false

/-- `isTrueFalseQuestion` of the fulfillment module. -/
def isTrueFalseQuestion (answers : List Str) : Bool :=
  if answers.length = 2 then
    let synonyms1 := getSynonyms (answers.getD 0 [])
    let synonyms2 := getSynonyms (answers.getD 1 [])
    if synonyms1.getD 0 [] ≠ [] ∧ synonyms2.getD 0 [] ≠ [] then
      isTrueFalse [jsToLower (synonyms1.getD 0 []), jsToLower (synonyms2.getD 0 [])]
    else false
  else false

/-- `parseInt(s)` with no radix argument: skip leading whitespace, optional
sign, optional `0x`/`0X` prefix selecting base 16, then the longest digit
prefix; no digits means `NaN` (`none`). -/
def digitsToNat (base : Nat) (toVal : Char → Option Nat) : Str → Nat → Nat
  | [], acc => acc
  | c :: rest, acc =>
    match toVal c with
    | some d => digitsToNat base toVal rest (acc * base + d)
    | none => acc

def decDigit (c : Char) : Option Nat :=
  if '0' ≤ c ∧ c ≤ '9' then some (c.toNat - '0'.toNat) else none

def hexDigit (c : Char) : Option Nat :=
  if '0' ≤ c ∧ c ≤ '9' then some (c.toNat - '0'.toNat)
  else if 'a' ≤ c ∧ c ≤ 'f' then some (c.toNat - 'a'.toNat + 10)
  else if 'A' ≤ c ∧ c ≤ 'F' then some (c.toNat - 'A'.toNat + 10)
  else none

def jsParseInt (s : Str) : Option Int :=
  let s1 := s.dropWhile isJsSpace
  let (sign, s2) : Int × Str :=
    match s1 with
    | '-' :: rest => (-1, rest)
    | '+' :: rest => (1, rest)
    | rest => (1, rest)
  let (base, digit, s3) : Nat × (Char → Option Nat) × Str :=
    match s2 with
    | '0' :: 'x' :: rest => (16, hexDigit, rest)
    | '0' :: 'X' :: rest => (16, hexDigit, rest)
    | rest => (10, decDigit, rest)
  match s3 with
  | c :: _ =>
    match digit c with
    | some _ => some (sign * (digitsToNat base digit s3 0 : Int))
    | none => none
  | [] => none

/-- `isValidAnswer` of the fulfillment module: the answer string is truthy,
parses to a number, and that number is within `[1, answers.length]`. -/
def isValidAnswer (answer : Str) (answers : List Str) : Bool :=
  answer ≠ [] &&
    match jsParseInt answer with
    | some n => decide (n < (answers.length : Int) + 1) && decide (n > 0)
    | none => false

/-! ### Helper lemmas for the matcher -/

theorem jsParseInt_nil : jsParseInt ([] : Str) = none := rfl

theorem jsParseInt_ne_nil {s : Str} {n : Int} (h : jsParseInt s = some n) : s ≠ [] := by
  intro hs
  rw [hs, jsParseInt_nil] at h
  exact Option.noConfusion h

theorem levF_comm : ∀ (fuel : Nat) (s t : Str), levF fuel s t = levF fuel t s := by
  intro fuel
  induction fuel with
  | zero =>
    intro s t
    cases s <;> cases t <;> simp [levF]
    omega
  | succ f ih =>
    intro s t
    cases s with
    | nil => cases t <;> simp [levF]
    | cons a s =>
      cases t with
      | nil => simp [levF]
      | cons b t =>
        simp only [levF]
        rw [ih s (b :: t), ih (a :: s) t, ih s t]
        have hab : (if a = b then 0 else 1) = (if b = a then 0 else 1) := by
          by_cases h : a = b
          · simp [h]
          · rw [if_neg h, if_neg (fun hba => h hba.symm)]
        rw [hab, Nat.min_comm (levF f t (a :: s) + 1) (levF f (b :: t) s + 1)]

theorem lev_comm (s t : Str) : lev s t = lev t s := by
  unfold lev
  rw [levF_comm, Nat.add_comm]

/-! ### Matcher claims -/

/-- C6: if either string, after lowercasing and removing the fixed punctuation
set and spaces, has length at most 3, `fuzzyMatch` is false regardless of edit
distance; when both normalized strings have length at least 4, edit distance
exactly 1 matches and edit distance 2 does not. -/
theorem fuzzyMatch_boundary (a b : Str) :
    ((removePunctuationAndSpaces (jsToLower a)).length ≤ 3 ∨
        (removePunctuationAndSpaces (jsToLower b)).length ≤ 3 →
      fuzzyMatch a b = false) ∧
    (4 ≤ (removePunctuationAndSpaces (jsToLower a)).length →
      4 ≤ (removePunctuationAndSpaces (jsToLower b)).length →
      (lev (removePunctuationAndSpaces (jsToLower a))
          (removePunctuationAndSpaces (jsToLower b)) = 1 →
        fuzzyMatch a b = true) ∧
      (lev (removePunctuationAndSpaces (jsToLower a))
          (removePunctuationAndSpaces (jsToLower b)) = 2 →
        fuzzyMatch a b = false)) := by
  simp only [fuzzyMatch]
  constructor
  · intro h
    rcases h with h | h <;> simp [Nat.not_lt.mpr h]
  · intro h4a h4b
    have ha3 : 3 < (removePunctuationAndSpaces (jsToLower a)).length := by omega
    have hb3 : 3 < (removePunctuationAndSpaces (jsToLower b)).length := by omega
    constructor
    · intro hlev
      simp [ha3, hb3, hlev]
    · intro hlev
      simp [hlev]

/-- C6 witness: concrete strings exercising each hypothesis of the boundary
theorem. -/
theorem fuzzyMatch_boundary_witness :
    fuzzyMatch (str "abc") (str "ab") = false ∧
    fuzzyMatch (str "abcd") (str "abcde") = true ∧
    fuzzyMatch (str "abcdef") (str "abcdxy") = false :=
  ⟨(fuzzyMatch_boundary (str "abc") (str "ab")).1 (by decide),
    ((fuzzyMatch_boundary (str "abcd") (str "abcde")).2 (by decide) (by decide)).1 (by decide),
    ((fuzzyMatch_boundary (str "abcdef") (str "abcdxy")).2 (by decide) (by decide)).2 (by decide)⟩

/-- C7: `isValidAnswer` accepts exactly the strings that parse (in the
`parseInt` sense) to an integer `n` with `1 ≤ n ≤ answers.length`. -/
theorem isValidAnswer_iff (answer : Str) (answers : List Str) :
    isValidAnswer answer answers = true ↔
      ∃ n : Int, jsParseInt answer = some n ∧ 1 ≤ n ∧ n ≤ (answers.length : Int) := by
  unfold isValidAnswer
  cases h : jsParseInt answer with
  | none => simp [h]
  | some n =>
    have hne : answer ≠ [] := jsParseInt_ne_nil h
    simp [h, hne]
    omega

/-- C9: `compareStrings` is false whenever either argument is missing or the
empty string (so an empty utterance exact-matches nothing), and on two
non-empty strings it decides equality after lowercasing and trimming. -/
theorem compareStrings_spec (string1 string2 : Option Str) :
    ((string1 = none ∨ string2 = none ∨ string1 = some [] ∨ string2 = some []) →
      compareStrings string1 string2 = false) ∧
    (∀ s1 s2, string1 = some s1 → string2 = some s2 → s1 ≠ [] → s2 ≠ [] →
      (compareStrings string1 string2 = true ↔
        jsTrim (jsToLower s1) = jsTrim (jsToLower s2))) := by
  constructor
  · intro h
    rcases h with h | h | h | h
    · subst h; cases string2 <;> simp [compareStrings]
    · subst h; cases string1 <;> simp [compareStrings]
    · subst h; cases string2 <;> simp [compareStrings]
    · subst h; cases string1 <;> simp [compareStrings]
  · rintro s1 s2 rfl rfl h1 h2
    simp [compareStrings, h1, h2]

/-- C9 witness: two empty strings do not match; non-empty strings compare by
lowercased trimmed equality. -/
theorem compareStrings_spec_witness :
    compareStrings (some (str "")) (some (str "")) = false ∧
    compareStrings (some (str "Ab")) (some (str " aB ")) = true :=
  ⟨(compareStrings_spec (some (str "")) (some (str ""))).1
      (Or.inr (Or.inr (Or.inl rfl))),
    ((compareStrings_spec (some (str "Ab")) (some (str " aB "))).2
        (str "Ab") (str " aB ") rfl rfl (by decide) (by decide)).mpr (by decide)⟩

/-- C10: `fuzzyMatch` is commutative. -/
theorem fuzzyMatch_comm (a b : Str) : fuzzyMatch a b = fuzzyMatch b a := by
  simp only [fuzzyMatch]
  rw [lev_comm]
  rw [Bool.and_comm (decide ((removePunctuationAndSpaces (jsToLower a)).length > 3))
    (decide ((removePunctuationAndSpaces (jsToLower b)).length > 3))]

/-! ### Answer shuffler (`selectAnswers`, fulfillment module lines 255-310) -/

/-- The `for` loop of `selectAnswers`: position `i` receives the stored
correct answer `answers[0]` when `i` equals the chosen correct index, and a
uniformly drawn element of the shrinking distractor pool otherwise. -/
def selLoop (correct : Nat) (a0 : Str) (g : Nat → Nat) : Nat → Nat → List Str → List Str
  | _, 0, _ => []
  | i, n + 1, cloned =>
    if i = correct then a0 :: selLoop correct a0 g (i + 1) n cloned
    else
      let index := getRandomNumber (g i) 0 (cloned.length - 1)
      cloned.getD index [] :: selLoop correct a0 g (i + 1) n (jsSpliceRemove1 cloned (index : Int))

/-- `selectAnswers(correctIndex, answers)`; `null` (`none`) when fewer than
two answers are supplied. -/
def selectAnswers (correctIndex : Nat) (answers : List Str) (g : Nat → Nat) :
    Option (List Str) :=
  if answers.length > 1 then
    some (selLoop correctIndex (answers.getD 0 []) g 0 answers.length (answers.drop 1))
  else none

/-- The answer-presentation branch of `startNewRound`/`nextQuestion`:
a true/false answer set is copied unchanged (`slice(0)`), anything else goes
through `selectAnswers`. -/
def presentAnswers (answers : List Str) (correctIndex : Nat) (g : Nat → Nat) :
    Option (List Str) :=
  if isTrueFalseQuestion answers then some answers
  else selectAnswers correctIndex answers g

theorem jsSpliceRemove1_eq_eraseIdx (l : List α) (i : Nat) (h : i < l.length) :
    jsSpliceRemove1 l (i : Int) = l.eraseIdx i := by
  unfold jsSpliceRemove1
  have h1 : ¬ ((i : Int) < 0) := by omega
  simp only [h1, if_false, Int.toNat_ofNat]
  rw [Nat.min_eq_left (Nat.le_of_lt h), List.eraseIdx_eq_take_drop_succ]

theorem cons_eraseIdx_perm {l : List Str} {i : Nat} (h : i < l.length) :
    (l.getD i [] :: l.eraseIdx i).Perm l := by
  rw [List.getD_eq_getElem l [] h]
  exact ((List.perm_cons_erase (List.getElem_mem h)).trans
    (List.Perm.cons _ (List.erase_getElem h))).symm

/-- After the loop has passed the correct position, it deals out exactly the
remaining pool, in some order. -/
theorem selLoop_post (correct : Nat) (a0 : Str) (g : Nat → Nat) :
    ∀ (n i : Nat) (cloned : List Str), correct < i → cloned.length = n →
      (selLoop correct a0 g i n cloned).Perm cloned := by
  intro n
  induction n with
  | zero =>
    intro i cloned _ hlen
    rw [List.length_eq_zero.mp hlen]
    exact List.Perm.refl _
  | succ n ih =>
    intro i cloned hci hlen
    have hic : i ≠ correct := by omega
    simp only [selLoop, hic, if_false]
    have hpos : 0 < cloned.length := by omega
    have hidx : getRandomNumber (g i) 0 (cloned.length - 1) < cloned.length := by
      unfold getRandomNumber
      have : cloned.length - 1 + 1 - 0 = cloned.length := by omega
      rw [this]
      exact Nat.zero_add _ ▸ Nat.mod_lt _ hpos
    rw [jsSpliceRemove1_eq_eraseIdx _ _ hidx]
    refine List.Perm.trans (List.Perm.cons _ (ih (i + 1) _ (by omega) ?_))
      (cons_eraseIdx_perm hidx)
    have := List.length_eraseIdx_add_one hidx
    omega

/-- Before the loop has passed the correct position, it deals out the correct
answer at position `correct - i` and the remaining pool around it. -/
theorem selLoop_pre (correct : Nat) (a0 : Str) (g : Nat → Nat) :
    ∀ (n i : Nat) (cloned : List Str), i ≤ correct → correct < i + n →
      cloned.length + 1 = n →
      (selLoop correct a0 g i n cloned).Perm (a0 :: cloned) ∧
      (selLoop correct a0 g i n cloned)[correct - i]? = some a0 := by
  intro n
  induction n with
  | zero => omega
  | succ n ih =>
    intro i cloned hic hcn hlen
    by_cases h : i = correct
    · subst h
      simp only [selLoop, if_pos rfl]
      constructor
      · exact List.Perm.cons _ (selLoop_post _ _ _ _ _ _ (by omega) (by omega))
      · simp
    · have hlt : i < correct := by omega
      simp only [selLoop, h, if_false]
      have hpos : 0 < cloned.length := by omega
      have hidx : getRandomNumber (g i) 0 (cloned.length - 1) < cloned.length := by
        unfold getRandomNumber
        have h2 : cloned.length - 1 + 1 - 0 = cloned.length := by omega
        rw [h2]
        exact Nat.zero_add _ ▸ Nat.mod_lt _ hpos
      rw [jsSpliceRemove1_eq_eraseIdx _ _ hidx]
      have hlen2 : (cloned.eraseIdx (getRandomNumber (g i) 0 (cloned.length - 1))).length + 1 = n := by
        have := List.length_eraseIdx_add_one hidx
        omega
      obtain ⟨hperm, hget⟩ := ih (i + 1) _ (by omega) (by omega) hlen2
      constructor
      · refine List.Perm.trans (List.Perm.cons _ hperm) ?_
        refine List.Perm.trans (List.Perm.swap _ _ _) (List.Perm.cons _ ?_)
        exact cons_eraseIdx_perm hidx
      · have hsub : correct - i = (correct - (i + 1)) + 1 := by omega
        rw [hsub]
        simpa using hget

/-- C3: for an answer set of at least two entries and a correct position `c`
within range, `selectAnswers` returns a permutation of the input with the
stored correct answer (element 0) at position `c`; a true/false answer set is
presented unchanged. -/
theorem selectAnswers_spec :
    (∀ (answers : List Str) (c : Nat) (g : Nat → Nat),
      2 ≤ answers.length → c < answers.length →
      ∃ out, selectAnswers c answers g = some out ∧ out.Perm answers ∧
        out.length = answers.length ∧ out[c]? = answers[0]?) ∧
    (∀ (answers : List Str) (c : Nat) (g : Nat → Nat),
      isTrueFalseQuestion answers = true → presentAnswers answers c g = some answers) := by
  constructor
  · intro answers c g hlen hc
    have hgt : answers.length > 1 := by omega
    simp only [selectAnswers, hgt, if_pos]
    refine ⟨_, rfl, ?_⟩
    have hdlen : (answers.drop 1).length + 1 = answers.length := by
      simp [List.length_drop]
      omega
    obtain ⟨hperm, hget⟩ :=
      selLoop_pre c (answers.getD 0 []) g answers.length 0 (answers.drop 1)
        (Nat.zero_le _) (by omega) hdlen
    have hanswers : answers.getD 0 [] :: answers.drop 1 = answers := by
      cases answers with
      | nil => simp at hlen
      | cons a rest => simp
    rw [hanswers] at hperm
    refine ⟨hperm, hperm.length_eq.trans rfl, ?_⟩
    have h0 : answers[0]? = some (answers.getD 0 []) := by
      cases answers with
      | nil => simp at hlen
      | cons a rest => simp
    rw [h0]
    simpa using hget
  · intro answers c g htf
    simp [presentAnswers, htf]

/-- C3 witness: a three-answer set with the correct answer placed at
position 1, and a true/false set presented unchanged. -/
theorem selectAnswers_spec_witness :
    (∃ out, selectAnswers 1 [str "x", str "y", str "z"] (fun t => t) = some out ∧
      out.Perm [str "x", str "y", str "z"] ∧ out.length = 3 ∧
      out[1]? = some (str "x")) ∧
    presentAnswers [str "true", str "false"] 0 (fun t => t) =
      some [str "true", str "false"] := by
  constructor
  · obtain ⟨out, h1, h2, h3, h4⟩ :=
      selectAnswers_spec.1 [str "x", str "y", str "z"] 1 (fun t => t)
        (by decide) (by decide)
    exact ⟨out, h1, h2, h3, by rw [h4]; decide⟩
  · exact selectAnswers_spec.2 [str "true", str "false"] 0 (fun t => t) (by decide)

/-! ### Question selector (`selectQuestions`, fulfillment module lines 187-252) -/

/-- The inner `while` of `selectQuestions`: draw random indices until one is
neither already selected nor in the previous-question history, or until every
index of the corpus has been seen rejected (the `checked` list fills up).
The loop is not structurally terminating (a draw stream may repeat an
already-checked index forever), so it takes explicit fuel; `none` means the
fuel ran out with the loop still running.  On exit it reports the accepted
index (or `none` on exhaustion), the updated `checked` list and the next
draw-stream position. -/
def innerLoop (g : Nat → Nat) (N : Nat) (selected previous : List Nat) :
    Nat → List Nat → Nat → Option (Option Nat × List Nat × Nat)
  | 0, checked, t =>
    if checked.length ≠ N then none else some (none, checked, t)
  | fuel + 1, checked, t =>
    if checked.length ≠ N then
      let index := getRandomNumber (g t) 0 (N - 1)
      if ¬ index ∈ selected ∧ ¬ index ∈ previous then some (some index, checked, t + 1)
      else innerLoop g N selected previous fuel
        (if index ∈ checked then checked else checked ++ [index]) (t + 1)
    else some (none, checked, t)

/-- The outer `while (i < gameLength)` of `selectQuestions`: one inner-loop
search per remaining slot, falling back to reusing history entries (cursor
`previousIndex`) when the search is exhausted. -/
def outerLoop (g : Nat → Nat) (N : Nat) (previous : List Nat) (fuel : Nat) :
    Nat → List Nat → List Nat → Nat → Nat → Option (List Nat)
  | 0, selected, _, _, _ => some selected
  | k + 1, selected, checked, previousIndex, t =>
    match innerLoop g N selected previous fuel checked t with
    | none => none
    | some (some index, checked2, t2) =>
      outerLoop g N previous fuel k (selected ++ [index]) checked2 previousIndex t2
    | some (none, checked2, t2) =>
      outerLoop g N previous fuel k (selected ++ [previous.getD previousIndex 0])
        checked2 (previousIndex + 1) t2

/-- `selectQuestions(questions)` with corpus size `N`, requested round length
`gameLength` (clamped to `N`), and the user's previous-question history:
the history is trimmed by `slice(gameLength, length)` when it exceeds
`MAX_PREVIOUS_QUESTIONS` (100) or covers the corpus length. -/
def selectQuestions (gameLength N : Nat) (previousQuestions : List Nat)
    (g : Nat → Nat) (fuel : Nat) : Option (List Nat) :=
  let gameLength2 := if gameLength > N then N else gameLength
  let previous :=
    if previousQuestions.length > 100 ∨ previousQuestions.length ≥ N then
      previousQuestions.drop gameLength2
    else previousQuestions
  outerLoop g N previous fuel gameLength2 [] [] 0 0

theorem toFinset_length_le (l1 l2 : List Nat) (h1 : l1.Nodup)
    (hsub : ∀ x ∈ l1, x ∈ l2) : l1.length ≤ l2.length := by
  calc l1.length = l1.toFinset.card := (List.toFinset_card_of_nodup h1).symm
    _ ≤ l2.toFinset.card := Finset.card_le_card
        (fun x hx => List.mem_toFinset.mpr (hsub x (List.mem_toFinset.mp hx)))
    _ ≤ l2.length := List.toFinset_card_le l2

theorem full_list_mem {N : Nat} (l : List Nat) (hnd : l.Nodup)
    (hlt : ∀ c ∈ l, c < N) (hlen : l.length = N) : ∀ q, q < N → q ∈ l := by
  intro q hq
  have h1 : l.toFinset ⊆ Finset.range N :=
    fun x hx => Finset.mem_range.mpr (hlt x (List.mem_toFinset.mp hx))
  have h3 : l.toFinset = Finset.range N := by
    refine Finset.eq_of_subset_of_card_le h1 ?_
    rw [List.toFinset_card_of_nodup hnd, hlen, Finset.card_range]
  have : q ∈ l.toFinset := by rw [h3]; exact Finset.mem_range.mpr hq
  exact List.mem_toFinset.mp this

theorem innerLoop_spec (g : Nat → Nat) (N : Nat) (selected previous : List Nat)
    (hN : 0 < N) :
    ∀ (fuel : Nat) (checked : List Nat) (t : Nat),
      checked.Nodup → (∀ c ∈ checked, c < N ∧ (c ∈ selected ∨ c ∈ previous)) →
      (∀ index checked2 t2,
        innerLoop g N selected previous fuel checked t = some (some index, checked2, t2) →
          index < N ∧ ¬ index ∈ selected ∧ ¬ index ∈ previous ∧
          checked2.Nodup ∧ (∀ c ∈ checked2, c < N ∧ (c ∈ selected ∨ c ∈ previous))) ∧
      (∀ checked2 t2,
        innerLoop g N selected previous fuel checked t = some (none, checked2, t2) →
          checked2.length = N ∧ checked2.Nodup ∧
          (∀ c ∈ checked2, c < N ∧ (c ∈ selected ∨ c ∈ previous))) := by
  intro fuel
  induction fuel with
  | zero =>
    intro checked t hnd hinv
    constructor
    · intro index checked2 t2 hres
      by_cases hlen : checked.length ≠ N <;> simp [innerLoop, hlen] at hres
    · intro checked2 t2 hres
      by_cases hlen : checked.length ≠ N <;> simp [innerLoop, hlen] at hres
      obtain ⟨rfl, rfl⟩ := hres
      exact ⟨by omega, hnd, hinv⟩
  | succ fuel ih =>
    intro checked t hnd hinv
    have hunfold : innerLoop g N selected previous (fuel + 1) checked t =
        if checked.length ≠ N then
          if ¬ getRandomNumber (g t) 0 (N - 1) ∈ selected ∧
              ¬ getRandomNumber (g t) 0 (N - 1) ∈ previous then
            some (some (getRandomNumber (g t) 0 (N - 1)), checked, t + 1)
          else
            innerLoop g N selected previous fuel
              (if getRandomNumber (g t) 0 (N - 1) ∈ checked then checked
                else checked ++ [getRandomNumber (g t) 0 (N - 1)]) (t + 1)
        else some (none, checked, t) := rfl
    by_cases hlen : checked.length ≠ N
    · have hidx : getRandomNumber (g t) 0 (N - 1) < N := by
        unfold getRandomNumber
        have h2 : N - 1 + 1 - 0 = N := by omega
        rw [h2]
        exact Nat.zero_add _ ▸ Nat.mod_lt _ hN
      by_cases hacc : ¬ getRandomNumber (g t) 0 (N - 1) ∈ selected ∧
          ¬ getRandomNumber (g t) 0 (N - 1) ∈ previous
      · rw [hunfold, if_pos hlen, if_pos hacc]
        constructor
        · intro index checked2 t2 hres
          simp only [Option.some.injEq, Prod.mk.injEq] at hres
          obtain ⟨h1, rfl, rfl⟩ := hres
          cases h1
          exact ⟨hidx, hacc.1, hacc.2, hnd, hinv⟩
        · intro checked2 t2 hres
          simp only [Option.some.injEq, Prod.mk.injEq] at hres
          exact absurd hres.1 (by simp)
      · have hrej : getRandomNumber (g t) 0 (N - 1) ∈ selected ∨
            getRandomNumber (g t) 0 (N - 1) ∈ previous := by
          by_cases h1 : getRandomNumber (g t) 0 (N - 1) ∈ selected
          · exact Or.inl h1
          · refine Or.inr ?_
            by_cases h2 : getRandomNumber (g t) 0 (N - 1) ∈ previous
            · exact h2
            · exact absurd ⟨h1, h2⟩ hacc
        have hnd2 : (if getRandomNumber (g t) 0 (N - 1) ∈ checked then checked
            else checked ++ [getRandomNumber (g t) 0 (N - 1)]).Nodup := by
          by_cases hc : getRandomNumber (g t) 0 (N - 1) ∈ checked
          · simpa [hc] using hnd
          · simp only [hc, if_false]
            rw [List.nodup_append]
            exact ⟨hnd, List.nodup_singleton _, by simpa using hc⟩
        have hinv2 : ∀ c ∈ (if getRandomNumber (g t) 0 (N - 1) ∈ checked then checked
            else checked ++ [getRandomNumber (g t) 0 (N - 1)]),
            c < N ∧ (c ∈ selected ∨ c ∈ previous) := by
          intro c hc
          by_cases hmem : getRandomNumber (g t) 0 (N - 1) ∈ checked
          · exact hinv c (by simpa [hmem] using hc)
          · simp only [hmem, if_false, List.mem_append, List.mem_singleton] at hc
            rcases hc with hc | rfl
            · exact hinv c hc
            · exact ⟨hidx, hrej⟩
        rw [hunfold, if_pos hlen, if_neg hacc]
        exact ih _ _ hnd2 hinv2
    · rw [hunfold, if_neg hlen]
      constructor
      · intro index checked2 t2 hres
        simp only [Option.some.injEq, Prod.mk.injEq] at hres
        exact absurd hres.1 (by simp)
      · intro checked2 t2 hres
        simp only [Option.some.injEq, Prod.mk.injEq] at hres
        obtain ⟨h1, rfl, rfl⟩ := hres
        exact ⟨by omega, hnd, hinv⟩

theorem outerLoop_length (g : Nat → Nat) (N : Nat) (previous : List Nat) (fuel : Nat) :
    ∀ (k : Nat) (selected checked : List Nat) (pIdx t : Nat) (sel : List Nat),
      outerLoop g N previous fuel k selected checked pIdx t = some sel →
      sel.length = selected.length + k := by
  intro k
  induction k with
  | zero =>
    intro selected checked pIdx t sel hres
    simp only [outerLoop, Option.some.injEq] at hres
    subst hres
    rfl
  | succ k ih =>
    intro selected checked pIdx t sel hres
    simp only [outerLoop] at hres
    cases hinner : innerLoop g N selected previous fuel checked t with
    | none => rw [hinner] at hres; exact Option.noConfusion hres
    | some r =>
      obtain ⟨found, checked2, t2⟩ := r
      rw [hinner] at hres
      cases found with
      | some index =>
        have := ih (selected ++ [index]) checked2 pIdx t2 sel hres
        simp only [List.length_append, List.length_cons, List.length_nil] at this
        omega
      | none =>
        have := ih (selected ++ [previous.getD pIdx 0]) checked2 (pIdx + 1) t2 sel hres
        simp only [List.length_append, List.length_cons, List.length_nil] at this
        omega

theorem outerLoop_spec (g : Nat → Nat) (N : Nat) (previous : List Nat) (fuel : Nat)
    (hN : 0 < N) :
    ∀ (k : Nat) (selected checked : List Nat) (pIdx t : Nat) (sel : List Nat),
      selected.Nodup → (∀ x ∈ selected, x < N ∧ ¬ x ∈ previous) →
      checked.Nodup → (∀ c ∈ checked, c < N ∧ (c ∈ selected ∨ c ∈ previous)) →
      selected.length + k ≤ ((List.range N).filter (fun q => ¬ q ∈ previous)).length →
      outerLoop g N previous fuel k selected checked pIdx t = some sel →
      sel.Nodup ∧ ∀ x ∈ sel, x < N ∧ ¬ x ∈ previous := by
  intro k
  induction k with
  | zero =>
    intro selected checked pIdx t sel hsnd hsinv _ _ _ hres
    simp only [outerLoop, Option.some.injEq] at hres
    subst hres
    exact ⟨hsnd, hsinv⟩
  | succ k ih =>
    intro selected checked pIdx t sel hsnd hsinv hcnd hcinv hcard hres
    simp only [outerLoop] at hres
    cases hinner : innerLoop g N selected previous fuel checked t with
    | none => rw [hinner] at hres; exact Option.noConfusion hres
    | some r =>
      obtain ⟨found, checked2, t2⟩ := r
      rw [hinner] at hres
      cases found with
      | some index =>
        obtain ⟨hidx, hnsel, hnprev, hnd2, hinv2⟩ :=
          (innerLoop_spec g N selected previous hN fuel checked t hcnd hcinv).1
            index checked2 t2 hinner
        refine ih (selected ++ [index]) checked2 pIdx t2 sel ?_ ?_ hnd2 ?_ ?_ hres
        · rw [List.nodup_append]
          exact ⟨hsnd, List.nodup_singleton _, by simpa using hnsel⟩
        · intro x hx
          rcases List.mem_append.mp hx with hx | hx
          · exact hsinv x hx
          · rw [List.mem_singleton] at hx
            subst hx
            exact ⟨hidx, hnprev⟩
        · intro c hc
          obtain ⟨h1, h2⟩ := hinv2 c hc
          exact ⟨h1, h2.imp (fun h => List.mem_append.mpr (Or.inl h)) id⟩
        · simp only [List.length_append, List.length_cons, List.length_nil]
          omega
      | none =>
        obtain ⟨hfull, hnd2, hinv2⟩ :=
          (innerLoop_spec g N selected previous hN fuel checked t hcnd hcinv).2
            checked2 t2 hinner
        exfalso
        have hmem : ∀ q, q < N → q ∈ checked2 :=
          full_list_mem checked2 hnd2 (fun c hc => (hinv2 c hc).1) hfull
        have hsub : ∀ x ∈ (List.range N).filter (fun q => ¬ q ∈ previous), x ∈ selected := by
          intro x hx
          rw [List.mem_filter] at hx
          obtain ⟨hxr, hxp⟩ := hx
          rw [List.mem_range] at hxr
          rcases (hinv2 x (hmem x hxr)).2 with h | h
          · exact h
          · exact absurd h (by simpa using hxp)
        have hle : ((List.range N).filter (fun q => ¬ q ∈ previous)).length ≤ selected.length :=
          toFinset_length_le _ _ ((List.nodup_range N).filter _) hsub
        omega

/-- C4 counterexample: as stated, the claim fails.  With corpus size 3, round
length 2 and history `[1, 2]` (which does not cover the corpus), a draw
stream that first picks 0 and then exhausts the corpus forces the fallback
path, and the selector returns `[0, 1]`, which contains index 1 from the
history.  With history `[0, 1, 0, 0, 1]` (trimmed to `[0, 0, 1]`), the
fallback path even returns the duplicate list `[0, 0]`. -/
theorem selectQuestions_cex :
    (selectQuestions 2 3 [1, 2] (fun t => [0, 0, 1, 2].getD t 0) 10 = some [0, 1] ∧
      2 < 3 ∧ ¬ (∀ q, q < 3 → q ∈ [1, 2]) ∧ 1 ∈ [0, 1] ∧ 1 ∈ [1, 2]) ∧
    (selectQuestions 2 2 [0, 1, 0, 0, 1] (fun t => [0, 1].getD t 0) 5 = some [0, 0] ∧
      ¬ ([0, 0] : List Nat).Nodup) := by
  constructor
  · exact ⟨by decide, by decide, by decide, by decide, by decide⟩
  · exact ⟨by decide, by decide⟩

/-- C4 (amended): whenever `selectQuestions` returns, the result has length
exactly `min L N`; and if additionally the history is within the untrimmed
bounds (at most 100 entries and fewer than the corpus size) and at least `L`
corpus indices lie outside the history, the result has no duplicates and
avoids the history entirely. -/
theorem selectQuestions_spec (L N : Nat) (H : List Nat) (g : Nat → Nat) (fuel : Nat)
    (sel : List Nat) (hres : selectQuestions L N H g fuel = some sel) :
    sel.length = min L N ∧
    (H.length ≤ 100 → H.length < N →
      L ≤ ((List.range N).filter (fun q => ¬ q ∈ H)).length →
      sel.Nodup ∧ ∀ x ∈ sel, ¬ x ∈ H) := by
  constructor
  · have := outerLoop_length g N _ fuel _ [] [] 0 0 sel hres
    simp only [List.length_nil, Nat.zero_add] at this
    rw [this]
    by_cases h : L > N
    · simp only [selectQuestions, if_pos h]
      omega
    · simp only [selectQuestions, if_neg h]
      omega
  · intro h100 hlt hfree
    have hN : 0 < N := by omega
    have hnotrim : ¬ (H.length > 100 ∨ H.length ≥ N) := by omega
    have hclamp : ¬ (L > N) := by
      have : ((List.range N).filter (fun q => ¬ q ∈ H)).length ≤ N := by
        calc ((List.range N).filter (fun q => ¬ q ∈ H)).length
            ≤ (List.range N).length := List.length_filter_le _ _
          _ = N := List.length_range N
      omega
    rw [selectQuestions, if_neg hclamp, if_neg hnotrim] at hres
    have := outerLoop_spec g N H fuel hN L [] [] 0 0 sel List.nodup_nil
      (by intro x hx; cases hx) List.nodup_nil (by intro c hc; cases hc)
      (by simpa using hfree) hres
    exact ⟨this.1, fun x hx => (this.2 x hx).2⟩

/-- C4 witness: corpus `{0, 1}`, round length 1, history `[0]`; the selector
picks index 1, which is new, distinct and of the right length. -/
theorem selectQuestions_spec_witness :
    selectQuestions 1 2 [0] (fun _ => 1) 5 = some [1] ∧
    ([1] : List Nat).length = min 1 2 ∧ ([1] : List Nat).Nodup ∧
    ∀ x ∈ ([1] : List Nat), ¬ x ∈ ([0] : List Nat) := by
  have h := selectQuestions_spec 1 2 [0] (fun _ => 1) 5 [1] (by decide)
  exact ⟨by decide, h.1, (h.2 (by decide) (by decide) (by decide)).1,
    (fun x hx => (h.2 (by decide) (by decide) (by decide)).2 x hx)⟩

/-- C5 counterexample: the selector loop is not bounded by the corpus size.
With corpus size 2, history `[0]` and the constant draw stream 0, the inner
loop keeps redrawing the rejected index 0; after 100 iterations (far more
than `N = 2`) it still has not terminated. -/
theorem selectQuestions_loop_cex :
    selectQuestions 2 2 [0] (fun _ => 0) 100 = none := by decide

/-- C5 (amended): the exhaustive-search loop is only probabilistically
terminating: it terminates within `fuel` iterations whenever every corpus
index is already checked or is produced by one of the next `fuel` draws —
not structurally within `N` iterations. -/
theorem innerLoop_terminates (g : Nat → Nat) (N : Nat) (selected previous : List Nat)
    (hN : 0 < N) :
    ∀ (fuel : Nat) (checked : List Nat) (t : Nat),
      checked.Nodup → (∀ c ∈ checked, c < N) →
      (∀ idx, idx < N →
        idx ∈ checked ∨ ∃ k, k < fuel ∧ getRandomNumber (g (t + k)) 0 (N - 1) = idx) →
      innerLoop g N selected previous fuel checked t ≠ none := by
  intro fuel
  induction fuel with
  | zero =>
    intro checked t hnd hbound hcov
    have hfull : ∀ idx, idx < N → idx ∈ checked := by
      intro idx hidx
      rcases hcov idx hidx with h | ⟨k, hk, _⟩
      · exact h
      · omega
    have hgeN : N ≤ checked.length := by
      have : ∀ x ∈ List.range N, x ∈ checked := by
        intro x hx
        exact hfull x (List.mem_range.mp hx)
      calc N = (List.range N).length := (List.length_range N).symm
        _ ≤ checked.length := toFinset_length_le _ _ (List.nodup_range N) this
    have hleN : checked.length ≤ N := by
      calc checked.length = checked.toFinset.card := (List.toFinset_card_of_nodup hnd).symm
        _ ≤ (Finset.range N).card := Finset.card_le_card
            (fun x hx => Finset.mem_range.mpr (hbound x (List.mem_toFinset.mp hx)))
        _ = N := Finset.card_range N
    have hlen : ¬ checked.length ≠ N := by omega
    simp [innerLoop, hlen]
  | succ fuel ih =>
    intro checked t hnd hbound hcov
    by_cases hlen : checked.length ≠ N
    · have hidx : getRandomNumber (g t) 0 (N - 1) < N := by
        unfold getRandomNumber
        have h2 : N - 1 + 1 - 0 = N := by omega
        rw [h2]
        exact Nat.zero_add _ ▸ Nat.mod_lt _ hN
      have hunfold : innerLoop g N selected previous (fuel + 1) checked t =
          if checked.length ≠ N then
            if ¬ getRandomNumber (g t) 0 (N - 1) ∈ selected ∧
                ¬ getRandomNumber (g t) 0 (N - 1) ∈ previous then
              some (some (getRandomNumber (g t) 0 (N - 1)), checked, t + 1)
            else
              innerLoop g N selected previous fuel
                (if getRandomNumber (g t) 0 (N - 1) ∈ checked then checked
                  else checked ++ [getRandomNumber (g t) 0 (N - 1)]) (t + 1)
          else some (none, checked, t) := rfl
      by_cases hacc : ¬ getRandomNumber (g t) 0 (N - 1) ∈ selected ∧
          ¬ getRandomNumber (g t) 0 (N - 1) ∈ previous
      · rw [hunfold, if_pos hlen, if_pos hacc]
        exact Option.noConfusion
      · rw [hunfold, if_pos hlen, if_neg hacc]
        have hmemnew : getRandomNumber (g t) 0 (N - 1) ∈
            (if getRandomNumber (g t) 0 (N - 1) ∈ checked then checked
              else checked ++ [getRandomNumber (g t) 0 (N - 1)]) := by
          by_cases hc : getRandomNumber (g t) 0 (N - 1) ∈ checked
          · rw [if_pos hc]; exact hc
          · simp [hc]
        refine ih _ (t + 1) ?_ ?_ ?_
        · by_cases hc : getRandomNumber (g t) 0 (N - 1) ∈ checked
          · simpa [hc] using hnd
          · simp only [hc, if_false]
            rw [List.nodup_append]
            exact ⟨hnd, List.nodup_singleton _, by simpa using hc⟩
        · intro c hc
          by_cases hm : getRandomNumber (g t) 0 (N - 1) ∈ checked
          · exact hbound c (by simpa [hm] using hc)
          · simp only [hm, if_false, List.mem_append, List.mem_singleton] at hc
            rcases hc with hc | rfl
            · exact hbound c hc
            · exact hidx
        · intro idx hidxN
          rcases hcov idx hidxN with h | ⟨k, hk, hdraw⟩
          · left
            by_cases hm : getRandomNumber (g t) 0 (N - 1) ∈ checked
            · simpa [hm] using h
            · simp [hm, h]
          · cases k with
            | zero =>
              left
              rw [Nat.add_zero] at hdraw
              rw [← hdraw]
              exact hmemnew
            | succ k =>
              right
              refine ⟨k, by omega, ?_⟩
              have ht : t + 1 + k = t + (k + 1) := by omega
              rw [ht, hdraw]
    · have hunfold : innerLoop g N selected previous (fuel + 1) checked t =
          if checked.length ≠ N then
            if ¬ getRandomNumber (g t) 0 (N - 1) ∈ selected ∧
                ¬ getRandomNumber (g t) 0 (N - 1) ∈ previous then
              some (some (getRandomNumber (g t) 0 (N - 1)), checked, t + 1)
            else
              innerLoop g N selected previous fuel
                (if getRandomNumber (g t) 0 (N - 1) ∈ checked then checked
                  else checked ++ [getRandomNumber (g t) 0 (N - 1)]) (t + 1)
          else some (none, checked, t) := rfl
      rw [hunfold, if_neg hlen]
      exact Option.noConfusion

/-- C5 witness: corpus size 1, empty state, a single draw covering the only
index; the search loop terminates. -/
theorem innerLoop_terminates_witness :
    innerLoop (fun _ => 0) 1 [] [] 1 [] 0 ≠ none :=
  innerLoop_terminates (fun _ => 0) 1 [] [] (by decide) 1 [] 0 List.nodup_nil
    (by intro c hc; cases hc)
    (by
      intro idx hidx
      have h0 : idx = 0 := by omega
      subst h0
      right
      exact ⟨0, by decide, by decide⟩)

/-! ### Session state machine (`unknownIntent`, `valueIntent`, `nextQuestion`,
fulfillment module lines 600-889).  External effects (speech output,
persistence) are the `Action` component; the Firebase dictionary lookup is the
boolean port `dictHit`. -/

inductive TurnAction where
  | askReprompt
  | askOfferQuit
  | tellEndSession
  | askNextQuestion
  | askPlayAgain
  | tellAnswersProblem
deriving DecidableEq

structure GameData where
  fallbackCount : Option Nat
  currentQuestion : Nat
  gameLength : Nat
  score : Nat
  sessionAnswers : List (List Str)
  selectedAnswers : List Str
  correctAnswer : Nat
  correct : Bool
deriving DecidableEq

/-- `handleNonDictionaryInput`: the response tier selected by the
fallback count. -/
def tierAction (fallbackCount : Nat) : TurnAction :=
  if fallbackCount = 1 then TurnAction.askReprompt
  else if fallbackCount = 2 then TurnAction.askOfferQuit
  else TurnAction.tellEndSession

/-- `nextQuestion`: on the last question, finalize the round (play-again
prompt; the fallback counter is left untouched); otherwise advance, rebuild
the presented answers and reset the fallback counter to 0. -/
def nextQuestionStep (g : Nat → Nat) (d : GameData) : GameData × TurnAction :=
  if d.currentQuestion = d.gameLength - 1 then (d, TurnAction.askPlayAgain)
  else
    let currentQuestion := d.currentQuestion + 1
    let selectedQuestionAnswers := d.sessionAnswers.getD currentQuestion []
    let correctIndex :=
      if isTrueFalseQuestion selectedQuestionAnswers then 0
      else getRandomNumber (g 0) 0 (selectedQuestionAnswers.length - 1)
    let selected :=
      if isTrueFalseQuestion selectedQuestionAnswers then some selectedQuestionAnswers
      else selectAnswers correctIndex selectedQuestionAnswers (fun t => g (t + 1))
    match selected with
    | some sa =>
      ({ d with
          selectedAnswers := sa
          correctAnswer := correctIndex
          fallbackCount := some 0
          currentQuestion := currentQuestion },
        TurnAction.askNextQuestion)
    | none => (d, TurnAction.tellAnswersProblem)

/-- `isValidAnswer` specialised to an already-numeric choice (`parseInt` of a
number is itself; `0` is falsy). -/
def isValidAnswerNat (n : Nat) (answers : List Str) : Bool :=
  n ≠ 0 && decide (n < answers.length + 1) && decide (n > 0)

/-- The state effects of `valueIntent` once a numeric choice is in hand: a
valid choice is scored and the game advances; an invalid one re-enters
`unknownIntent` with `otherIntentTriggered`, which increments the counter
again and then the dictionary lookup decides. -/
def valueIntentNum (g : Nat → Nat) (d : GameData) (number : Nat) (dictHit : Bool) :
    GameData × TurnAction :=
  if isValidAnswerNat number d.selectedAnswers then
    let d1 := if number = d.correctAnswer + 1
      then { d with score := d.score + 1, correct := true }
      else { d with correct := false }
    nextQuestionStep g d1
  else
    let fallbackCount := d.fallbackCount.getD 0 + 1
    let d1 := { d with fallbackCount := some fallbackCount }
    if dictHit then nextQuestionStep g { d1 with correct := false }
    else (d1, tierAction fallbackCount)

/-- One synonym matches the raw input if it fuzzy-matches the whole input or
compares equal to one of its space-separated parts. -/
def synMatches (rawInput : Str) (syn : Str) : Bool :=
  fuzzyMatch syn rawInput ||
    (splitOn ' ' rawInput).any (fun part => compareStrings (some part) (some syn))

/-- The fuzzy/partial scan of `unknownIntent` over the presented answers:
first answer (0-based) with a matching synonym. -/
def scanAnswersFrom (rawInput : Str) : List Str → Nat → Option Nat
  | [], _ => none
  | a :: rest, i =>
    if (getSynonyms a).any (fun syn => synMatches rawInput syn) then some i
    else scanAnswersFrom rawInput rest (i + 1)

def scanAnswers (selectedAnswers : List Str) (rawInput : Str) : Option Nat :=
  scanAnswersFrom rawInput selectedAnswers 0

/-- `unknownIntent`: increment the fallback counter, try the fuzzy/partial
scan (unless another intent already triggered), then fall back to the
dictionary lookup and the tiered fallback prompts. -/
def unknownIntentStep (g : Nat → Nat) (d : GameData) (rawInput : Str)
    (otherIntentTriggered : Bool) (dictHit : Bool) : GameData × TurnAction :=
  let fallbackCount := d.fallbackCount.getD 0 + 1
  let d1 := { d with fallbackCount := some fallbackCount }
  match (if otherIntentTriggered then none
      else scanAnswers d1.selectedAnswers (jsTrim rawInput)) with
  | some i => valueIntentNum g d1 (i + 1) dictHit
  | none =>
    if dictHit then nextQuestionStep g { d1 with correct := false }
    else (d1, tierAction fallbackCount)

theorem scanAnswersFrom_lt (rawInput : Str) :
    ∀ (l : List Str) (j i : Nat), scanAnswersFrom rawInput l j = some i →
      j ≤ i ∧ i < j + l.length := by
  intro l
  induction l with
  | nil => intro j i h; exact Option.noConfusion h
  | cons a rest ih =>
    intro j i h
    simp only [scanAnswersFrom] at h
    by_cases hm : (getSynonyms a).any (fun syn => synMatches rawInput syn) = true
    · rw [if_pos hm] at h
      cases h
      refine ⟨Nat.le_refl _, ?_⟩
      simp only [List.length_cons]
      omega
    · rw [if_neg hm] at h
      have := ih (j + 1) i h
      constructor
      · omega
      · simp only [List.length_cons]
        omega

theorem scanAnswers_lt {selectedAnswers : List Str} {rawInput : Str} {i : Nat}
    (h : scanAnswers selectedAnswers rawInput = some i) : i < selectedAnswers.length := by
  have := scanAnswersFrom_lt rawInput selectedAnswers 0 i h
  omega

theorem nextQuestionStep_not_last (g : Nat → Nat) (d : GameData)
    (hne : ¬ d.currentQuestion = d.gameLength - 1)
    (hlen : 1 < (d.sessionAnswers.getD (d.currentQuestion + 1) []).length) :
    (nextQuestionStep g d).1.fallbackCount = some 0 ∧
    (nextQuestionStep g d).2 = TurnAction.askNextQuestion := by
  have hlen2 : 1 < ((d.sessionAnswers[d.currentQuestion + 1]?).getD []).length := by
    simpa [List.getD_eq_getElem?_getD] using hlen
  by_cases htf :
      isTrueFalseQuestion ((d.sessionAnswers[d.currentQuestion + 1]?).getD []) = true
  · simp [nextQuestionStep, hne, htf]
  · simp only [Bool.not_eq_true] at htf
    simp [nextQuestionStep, hne, htf, selectAnswers, hlen2]

theorem valueIntentNum_valid (g : Nat → Nat) (d : GameData) (n : Nat) (dictHit : Bool)
    (hvalid : isValidAnswerNat n d.selectedAnswers = true)
    (hne : ¬ d.currentQuestion = d.gameLength - 1)
    (hlen : 1 < (d.sessionAnswers.getD (d.currentQuestion + 1) []).length) :
    (valueIntentNum g d n dictHit).1.fallbackCount = some 0 ∧
    (valueIntentNum g d n dictHit).2 = TurnAction.askNextQuestion := by
  by_cases hc : n = d.correctAnswer + 1
  · rw [valueIntentNum, if_pos hvalid, if_pos hc]
    exact nextQuestionStep_not_last g _ hne hlen
  · rw [valueIntentNum, if_pos hvalid, if_neg hc]
    exact nextQuestionStep_not_last g _ hne hlen

/-- C2 counterexample: the claim that any resolved turn resets
`fallbackCount` to 0 fails on the final question of a round.  With the
counter at 2 and the current question being the last one, a turn that
resolves the correct answer leaves the counter incremented to 3 (not 0)
while finalizing the round. -/
theorem fallback_reset_cex :
    (unknownIntentStep (fun _ => 0)
        { fallbackCount := some 2, currentQuestion := 3, gameLength := 4, score := 0,
          sessionAnswers := [], selectedAnswers := [str "paris"], correctAnswer := 0,
          correct := false } (str "paris") false false).1.fallbackCount = some 3 ∧
    (unknownIntentStep (fun _ => 0)
        { fallbackCount := some 2, currentQuestion := 3, gameLength := 4, score := 0,
          sessionAnswers := [], selectedAnswers := [str "paris"], correctAnswer := 0,
          correct := false } (str "paris") false false).2 = TurnAction.askPlayAgain := by
  constructor
  · decide
  · decide

/-- C2 (amended): an unresolved, non-dictionary turn increments
`fallbackCount` and answers with the tier selected by the count (1 reprompts,
2 offers to quit, 3 or more end the session with a final tell); three
consecutive such turns starting from count 0 therefore reprompt, offer to
quit, and terminate; a turn in between that resolves an answer or matches the
dictionary entry resets the counter to 0 provided it does not complete the
round (on the final question the counter is left incremented) and the next
question's answer set is well-formed. -/
theorem fallback_escalation_spec (g : Nat → Nat) (d : GameData) (raw : Str) :
    ((scanAnswers d.selectedAnswers (jsTrim raw) = none →
      unknownIntentStep g d raw false false =
        ({ d with fallbackCount := some (d.fallbackCount.getD 0 + 1) },
          tierAction (d.fallbackCount.getD 0 + 1))) ∧
      tierAction 1 = TurnAction.askReprompt ∧ tierAction 2 = TurnAction.askOfferQuit ∧
      ∀ c, 3 ≤ c → tierAction c = TurnAction.tellEndSession) ∧
    (scanAnswers d.selectedAnswers (jsTrim raw) = none → d.fallbackCount = some 0 →
      (unknownIntentStep g d raw false false).2 = TurnAction.askReprompt ∧
      (unknownIntentStep g
          (unknownIntentStep g d raw false false).1 raw false false).2 =
        TurnAction.askOfferQuit ∧
      (unknownIntentStep g
          (unknownIntentStep g
            (unknownIntentStep g d raw false false).1 raw false false).1
          raw false false).2 = TurnAction.tellEndSession) ∧
    (∀ i, scanAnswers d.selectedAnswers (jsTrim raw) = some i →
      ¬ d.currentQuestion = d.gameLength - 1 →
      1 < (d.sessionAnswers.getD (d.currentQuestion + 1) []).length →
      (unknownIntentStep g d raw false false).1.fallbackCount = some 0 ∧
      (unknownIntentStep g d raw false false).2 = TurnAction.askNextQuestion) ∧
    (scanAnswers d.selectedAnswers (jsTrim raw) = none →
      ¬ d.currentQuestion = d.gameLength - 1 →
      1 < (d.sessionAnswers.getD (d.currentQuestion + 1) []).length →
      (unknownIntentStep g d raw false true).1.fallbackCount = some 0 ∧
      (unknownIntentStep g d raw false true).2 = TurnAction.askNextQuestion) := by
  have hstep : ∀ (d2 : GameData), scanAnswers d2.selectedAnswers (jsTrim raw) = none →
      unknownIntentStep g d2 raw false false =
        ({ d2 with fallbackCount := some (d2.fallbackCount.getD 0 + 1) },
          tierAction (d2.fallbackCount.getD 0 + 1)) := by
    intro d2 hscan
    simp [unknownIntentStep, hscan]
  refine ⟨⟨hstep d, rfl, rfl, ?_⟩, ?_, ?_, ?_⟩
  · intro c hc
    have h1 : ¬ c = 1 := by omega
    have h2 : ¬ c = 2 := by omega
    simp [tierAction, h1, h2]
  · intro hscan h0
    have e1 : unknownIntentStep g d raw false false =
        ({ d with fallbackCount := some 1 }, tierAction 1) := by
      rw [hstep d hscan, h0]
      rfl
    have hscan1 : scanAnswers ({ d with fallbackCount := some 1 } :
        GameData).selectedAnswers (jsTrim raw) = none := hscan
    have e2 : unknownIntentStep g { d with fallbackCount := some 1 } raw false false =
        ({ d with fallbackCount := some 2 }, tierAction 2) := by
      rw [hstep _ hscan1]
      rfl
    have hscan2 : scanAnswers ({ d with fallbackCount := some 2 } :
        GameData).selectedAnswers (jsTrim raw) = none := hscan
    have e3 : unknownIntentStep g { d with fallbackCount := some 2 } raw false false =
        ({ d with fallbackCount := some 3 }, tierAction 3) := by
      rw [hstep _ hscan2]
      rfl
    refine ⟨?_, ?_, ?_⟩
    · simp [e1, tierAction]
    · simp [e1, e2, tierAction]
    · simp [e1, e2, e3, tierAction]
  · intro i hscan hne hlen
    have hi : i < d.selectedAnswers.length := scanAnswers_lt hscan
    have hvalid : isValidAnswerNat (i + 1) d.selectedAnswers = true := by
      simp only [isValidAnswerNat, Bool.and_eq_true, decide_eq_true_eq, ne_eq]
      refine ⟨⟨by simp, by omega⟩, by omega⟩
    simp only [unknownIntentStep, Bool.false_eq_true, if_false, hscan]
    exact valueIntentNum_valid g _ (i + 1) false hvalid hne hlen
  · intro hscan hne hlen
    simp only [unknownIntentStep, Bool.false_eq_true, if_false, hscan]
    rw [if_pos trivial]
    exact nextQuestionStep_not_last g _ hne hlen

/-- C2 witness: an unresolved turn from count 0 reprompts; a resolved
(fuzzy-matched) turn before the final question resets the counter to 0. -/
theorem fallback_escalation_spec_witness :
    (unknownIntentStep (fun _ => 0)
        { fallbackCount := some 0, currentQuestion := 0, gameLength := 4, score := 0,
          sessionAnswers := [], selectedAnswers := [str "abcd"], correctAnswer := 0,
          correct := false } (str "zzzz") false false).2 = TurnAction.askReprompt ∧
    (unknownIntentStep (fun _ => 0)
        { fallbackCount := some 0, currentQuestion := 0, gameLength := 4, score := 0,
          sessionAnswers := [[], [str "aa", str "bb", str "cc"]],
          selectedAnswers := [str "paris"], correctAnswer := 0, correct := false }
        (str "paris") false false).1.fallbackCount = some 0 := by
  constructor
  · exact ((fallback_escalation_spec (fun _ => 0) _ (str "zzzz")).2.1
      (by decide) (by decide)).1
  · exact ((fallback_escalation_spec (fun _ => 0) _ (str "paris")).2.2.1 0
      (by decide) (by decide) (by decide)).1

/-! ### Synonym engine (`generateSynonyms`, `functions/utils.js` lines 95-192).
The JS object `synonyms` (string keys, insertion order) is an association
list; assigning a fresh array to a key is `mapSet`, in-place `splice` on an
entry's array is `mapUpdate`. -/

abbrev SynMap := List (Str × List Str)

def mapGet (m : SynMap) (key : Str) : Option (List Str) :=
  match m.find? (fun p => p.1 = key) with
  | some p => some p.2
  | none => none

def mapSet (m : SynMap) (key : Str) (v : List Str) : SynMap :=
  if m.any (fun p => p.1 = key) then
    m.map (fun p => if p.1 = key then (key, v) else p)
  else m ++ [(key, v)]

def mapUpdate (m : SynMap) (key : Str) (f : List Str → List Str) : SynMap :=
  m.map (fun p => if p.1 = key then (p.1, f p.2) else p)

def isIgnorableWord (result : Str) : Bool :=
  result = str "the" || result = str "a" || result = str "and" || result = str "or" ||
    result = str "&" || result = str "of" || result = str "for" || result = str "an" ||
    result = str "by"

/-- The reverse-order `splice` removal of ignorable words is a filter;
each word is lowercased and trimmed before the stop-word test. -/
def filterIgnorable (results : List Str) : List Str :=
  results.filter (fun w => ¬ isIgnorableWord (jsTrim (jsToLower w)))

/-- The no-separator branch: word-split the value, drop stop-words, and put
the full value first unless it is itself one of the words. -/
def noSepGroup (value : Str) : List Str :=
  let results := filterIgnorable (splitOn ' ' value)
  if jsIndexOf results value = -1 then value :: results else results

/-- The separator branch: the full value first, then the stop-word-filtered
words of every pipe-delimited segment, first occurrence only. -/
def sepGroup (value : Str) : List Str :=
  (splitOn SEPARATOR value).foldl
    (fun allValues segment =>
      (filterIgnorable (splitOn ' ' (jsTrim segment))).foldl
        (fun acc w => if jsIndexOf acc w = -1 then acc ++ [w] else acc) allValues)
    [value]

/-- One step of `findAllSynonyms`: store the group of one (trimmed) value. -/
def findAllStep (m : SynMap) (value0 : Str) : SynMap :=
  let value := jsTrim value0
  if jsIndexOf value SEPARATOR = -1 then mapSet m value (noSepGroup value)
  else mapSet m value (sepGroup value)

/-- `findAllSynonyms`: build the synonym group of every (trimmed) value. -/
def findAllSynonyms (values : List Str) : SynMap :=
  values.foldl findAllStep []

/-- `otherSynonyms.splice(otherSynonyms.indexOf(result), 1)` — on the live
array, with the JS behaviour of `splice(-1, 1)` when the word is gone. -/
def removeWordFromOther (m : SynMap) (key : Str) (w : Str) : SynMap :=
  mapUpdate m key (fun g => jsSpliceRemove1 g (jsIndexOf g w))

/-- `if (valueSynonyms.indexOf(result) !== -1) valueSynonyms.splice(...)`. -/
def removeWordFromValue (m : SynMap) (key : Str) (w : Str) : SynMap :=
  mapUpdate m key
    (fun g => if jsIndexOf g w ≠ -1 then jsSpliceRemove1 g (jsIndexOf g w) else g)

/-- The `for (let j ...)` loop over the cloned value-synonyms: every word
also present in the cloned other-synonyms is removed from both live arrays. -/
def dedupInner (valueKey otherKey : Str) (otherClone : List Str) :
    List Str → SynMap → SynMap
  | [], m => m
  | w :: rest, m =>
    if jsIndexOf otherClone w ≠ -1 then
      dedupInner valueKey otherKey otherClone rest
        (removeWordFromValue (removeWordFromOther m otherKey w) valueKey w)
    else dedupInner valueKey otherKey otherClone rest m

/-- The `for (const key in synonyms)` loop: compare the value's group against
every other key's group (cloned at this point). -/
def dedupKeys (valueKey : Str) (gClone : List Str) : List Str → SynMap → SynMap
  | [], m => m
  | key :: rest, m =>
    if key ≠ valueKey then
      dedupKeys valueKey gClone rest
        (dedupInner valueKey key ((mapGet m key).getD []) gClone m)
    else dedupKeys valueKey gClone rest m

/-- The `for (let i ...)` loop over the (untrimmed) values of the
cross-deduplication pass; a value that is not a key is skipped. -/
def dedupOuter : List Str → SynMap → SynMap
  | [], m => m
  | value :: rest, m =>
    match mapGet m value with
    | some g => dedupOuter rest (dedupKeys value g (m.map (fun p => p.1)) m)
    | none => dedupOuter rest m

/-- `generateSynonyms`: build the groups, cross-deduplicate, and emit one
pipe-joined entry per input value, falling back to the trimmed value when
its group ended up empty. -/
def generateSynonyms (values : List Str) : List Str :=
  let m := dedupOuter values (findAllSynonyms values)
  values.map (fun v =>
    let key := jsTrim v
    match mapGet m key with
    | some g => if g.length ≠ 0 then joinSep SEPARATOR g else key
    | none => key)

/-! ### Invariants of the synonym engine -/

/-- A word with no space and no pipe: it can belong to several groups only by
textual coincidence, never as a full phrase. -/
def plainWord (w : Str) : Prop := ¬ ' ' ∈ w ∧ ¬ SEPARATOR ∈ w

/-- The invariant of one map entry: the group is empty or starts with its key
(the full canonical phrase); all other members are plain words; and a plain
key owns a group of at most one element. -/
def GoodEntry (key : Str) (g : List Str) : Prop :=
  (g = [] ∨ ∃ t, g = key :: t) ∧
  (∀ w ∈ g, w = key ∨ plainWord w) ∧
  (plainWord key → g.length ≤ 1)

def GoodMap (m : SynMap) : Prop := ∀ p ∈ m, GoodEntry p.1 p.2

theorem jsIndexOf_ge [DecidableEq α] (l : List α) (x : α) : -1 ≤ jsIndexOf l x := by
  induction l with
  | nil => simp [jsIndexOf]
  | cons a rest ih =>
    simp only [jsIndexOf]
    by_cases ha : a = x
    · simp [ha]
    · rw [if_neg ha]
      by_cases hr : jsIndexOf rest x = -1
      · rw [if_pos hr]
      · rw [if_neg hr]
        omega

theorem jsIndexOf_neg_iff [DecidableEq α] (l : List α) (x : α) :
    jsIndexOf l x = -1 ↔ ¬ x ∈ l := by
  induction l with
  | nil => simp [jsIndexOf]
  | cons a rest ih =>
    simp only [jsIndexOf, List.mem_cons]
    by_cases ha : a = x
    · rw [if_pos ha]
      constructor
      · intro h
        exact absurd h (by omega)
      · intro h
        exact absurd (Or.inl ha.symm) h
    · rw [if_neg ha]
      by_cases hr : jsIndexOf rest x = -1
      · rw [if_pos hr]
        constructor
        · intro _
          rintro (h1 | h2)
          · exact ha h1.symm
          · exact ih.mp hr h2
        · intro _
          rfl
      · rw [if_neg hr]
        have hge := jsIndexOf_ge rest x
        constructor
        · intro h
          exact absurd h (by omega)
        · intro h
          exact absurd (ih.mpr (fun hm => h (Or.inr hm))) hr

theorem jsIndexOf_zero [DecidableEq α] (l : List α) (x : α)
    (h : jsIndexOf l x = 0) : ∃ t, l = x :: t := by
  cases l with
  | nil => simp [jsIndexOf] at h
  | cons a rest =>
    simp only [jsIndexOf] at h
    by_cases ha : a = x
    · exact ⟨rest, by rw [ha]⟩
    · rw [if_neg ha] at h
      by_cases hr : jsIndexOf rest x = -1
      · rw [if_pos hr] at h
        exact absurd h (by omega)
      · rw [if_neg hr] at h
        have hge := jsIndexOf_ge rest x
        exact absurd h (by omega)

theorem jsIndexOf_cases [DecidableEq α] (l : List α) (x : α) :
    jsIndexOf l x = -1 ∨ jsIndexOf l x = 0 ∨ 1 ≤ jsIndexOf l x := by
  have := jsIndexOf_ge l x
  omega

theorem jsSpliceRemove1_nil (i : Int) : jsSpliceRemove1 ([] : List α) i = [] := by
  simp [jsSpliceRemove1]

theorem jsSpliceRemove1_subset (l : List α) (i : Int) :
    ∀ y ∈ jsSpliceRemove1 l i, y ∈ l := by
  intro y hy
  simp only [jsSpliceRemove1, List.mem_append] at hy
  rcases hy with hy | hy
  · exact List.mem_of_mem_take hy
  · exact List.mem_of_mem_drop hy

theorem jsSpliceRemove1_length_le (l : List α) (i : Int) :
    (jsSpliceRemove1 l i).length ≤ l.length := by
  simp only [jsSpliceRemove1, List.length_append, List.length_take, List.length_drop]
  omega

theorem jsSpliceRemove1_zero (l : List α) : jsSpliceRemove1 l 0 = l.drop 1 := by
  simp [jsSpliceRemove1]

theorem jsSpliceRemove1_cons_head (k : α) (t : List α) (i : Int)
    (h : 1 ≤ i ∨ (i = -1 ∧ t ≠ [])) :
    ∃ t2, jsSpliceRemove1 (k :: t) i = k :: t2 := by
  simp only [jsSpliceRemove1]
  rcases h with h | ⟨rfl, ht⟩
  · have hneg : ¬ i < 0 := by omega
    rw [if_neg hneg]
    have h1 : 1 ≤ i.toNat := by omega
    have h2 : 1 ≤ min i.toNat (k :: t).length := by
      simp only [List.length_cons]
      omega
    obtain ⟨n, hn⟩ : ∃ n, min i.toNat (k :: t).length = n + 1 :=
      ⟨min i.toNat (k :: t).length - 1, by omega⟩
    rw [hn]
    exact ⟨t.take n ++ t.drop (n + 1), by simp⟩
  · rw [if_pos (by omega : (-1 : Int) < 0)]
    have hlen : 1 ≤ t.length := by
      cases t with
      | nil => exact absurd rfl ht
      | cons _ _ => simp
    have h3 : (((k :: t).length : Int) + -1).toNat = t.length := by
      simp only [List.length_cons]
      omega
    rw [h3]
    obtain ⟨n, hn⟩ : ∃ n, t.length = n + 1 := ⟨t.length - 1, by omega⟩
    rw [hn]
    exact ⟨t.take n ++ t.drop (n + 1), by simp⟩

theorem jsSpliceRemove1_singleton_neg (x : α) :
    jsSpliceRemove1 [x] (-1) = [] := by
  simp [jsSpliceRemove1]

theorem jsSpliceRemove1_singleton_zero (x : α) :
    jsSpliceRemove1 [x] 0 = [] := by
  simp [jsSpliceRemove1]

/-- Removing (JS-style) one word from a good group keeps it good: the head
phrase survives unless the group was a singleton, in which case the group
becomes empty. -/
theorem goodEntry_remove (key other : Str) (g : List Str) (w : Str)
    (hg : GoodEntry key g) (hne : other ≠ key) (hw : w = other ∨ plainWord w) :
    GoodEntry key (jsSpliceRemove1 g (jsIndexOf g w)) := by
  obtain ⟨h1, h2, h3⟩ := hg
  cases g with
  | nil =>
    rw [jsSpliceRemove1_nil]
    exact ⟨Or.inl rfl, by simp, fun _ => by simp⟩
  | cons k t =>
    have hk : k = key := by
      rcases h1 with h1 | ⟨t2, ht2⟩
      · exact absurd h1 (by simp)
      · exact (List.cons.injEq _ _ _ _ ▸ ht2).1
    subst hk
    rcases jsIndexOf_cases (k :: t) w with hidx | hidx | hidx
    · cases t with
      | nil =>
        rw [hidx, jsSpliceRemove1_singleton_neg]
        exact ⟨Or.inl rfl, by simp, fun _ => by simp⟩
      | cons b t2 =>
        rw [hidx]
        obtain ⟨t3, ht3⟩ :=
          jsSpliceRemove1_cons_head k (b :: t2) (-1) (Or.inr ⟨rfl, by simp⟩)
        rw [ht3]
        refine ⟨Or.inr ⟨t3, rfl⟩, ?_, ?_⟩
        · intro w2 hw2
          apply h2
          exact jsSpliceRemove1_subset _ _ w2 (by rw [ht3]; exact hw2)
        · intro hpk
          have := h3 hpk
          simp at this
    · obtain ⟨t2, ht2⟩ := jsIndexOf_zero _ _ hidx
      have hwk : w = k := ((List.cons.injEq _ _ _ _ ▸ ht2).1).symm
      have hpk : plainWord k := by
        rcases hw with hw | hw
        · exact absurd (hw.symm.trans hwk) hne
        · exact hwk ▸ hw
      have ht : t = [] := by
        have := h3 hpk
        cases t with
        | nil => rfl
        | cons _ _ => simp at this
      subst ht
      rw [hidx, jsSpliceRemove1_singleton_zero]
      exact ⟨Or.inl rfl, by simp, fun _ => by simp⟩
    · obtain ⟨t3, ht3⟩ := jsSpliceRemove1_cons_head k t _ (Or.inl hidx)
      rw [ht3]
      refine ⟨Or.inr ⟨t3, rfl⟩, ?_, ?_⟩
      · intro w2 hw2
        apply h2
        exact jsSpliceRemove1_subset _ _ w2 (by rw [ht3]; exact hw2)
      · intro hpk
        calc (k :: t3).length
            = (jsSpliceRemove1 (k :: t) (jsIndexOf (k :: t) w)).length := by rw [ht3]
          _ ≤ (k :: t).length := jsSpliceRemove1_length_le _ _
          _ ≤ 1 := h3 hpk

theorem goodMap_update (m : SynMap) (key : Str) (f : List Str → List Str)
    (hm : GoodMap m) (hf : ∀ g, GoodEntry key g → GoodEntry key (f g)) :
    GoodMap (mapUpdate m key f) := by
  intro p hp
  simp only [mapUpdate, List.mem_map] at hp
  obtain ⟨q, hq, hpq⟩ := hp
  by_cases hqk : q.1 = key
  · rw [if_pos hqk] at hpq
    subst hpq
    have hgq : GoodEntry key q.2 := hqk ▸ hm q hq
    exact hqk ▸ hf q.2 hgq
  · rw [if_neg hqk] at hpq
    subst hpq
    exact hm q hq

theorem goodMap_removeOther (m : SynMap) (otherKey valueKey : Str) (w : Str)
    (hm : GoodMap m) (hne : valueKey ≠ otherKey) (hw : w = valueKey ∨ plainWord w) :
    GoodMap (removeWordFromOther m otherKey w) :=
  goodMap_update m otherKey _ hm
    (fun g hg => goodEntry_remove otherKey valueKey g w hg hne hw)

theorem goodMap_removeValue (m : SynMap) (valueKey otherKey : Str) (w : Str)
    (hm : GoodMap m) (hne : otherKey ≠ valueKey) (hw : w = otherKey ∨ plainWord w) :
    GoodMap (removeWordFromValue m valueKey w) := by
  apply goodMap_update m valueKey _ hm
  intro g hg
  by_cases hidx : jsIndexOf g w ≠ -1
  · rw [if_pos hidx]
    exact goodEntry_remove valueKey otherKey g w hg hne hw
  · rw [if_neg hidx]
    exact hg

theorem goodMap_dedupInner (valueKey otherKey : Str) (otherClone : List Str)
    (hne : valueKey ≠ otherKey)
    (hclone : ∀ w ∈ otherClone, w = otherKey ∨ plainWord w) :
    ∀ (ws : List Str) (m : SynMap),
      (∀ w ∈ ws, w = valueKey ∨ plainWord w) → GoodMap m →
      GoodMap (dedupInner valueKey otherKey otherClone ws m) := by
  intro ws
  induction ws with
  | nil => intro m _ hm; exact hm
  | cons w rest ih =>
    intro m hws hm
    simp only [dedupInner]
    by_cases hidx : jsIndexOf otherClone w ≠ -1
    · rw [if_pos hidx]
      apply ih _ (fun w2 hw2 => hws w2 (List.mem_cons_of_mem _ hw2))
      apply goodMap_removeValue _ _ otherKey _ ?_ (fun h => hne h.symm)
      · exact hclone w ((jsIndexOf_neg_iff otherClone w).not_left.mp hidx)
      · exact goodMap_removeOther _ _ valueKey _ hm hne (hws w (List.mem_cons_self _ _))
    · rw [if_neg hidx]
      exact ih _ (fun w2 hw2 => hws w2 (List.mem_cons_of_mem _ hw2)) hm

theorem mapGet_entry {m : SynMap} {key : Str} {g : List Str}
    (h : mapGet m key = some g) : (key, g) ∈ m := by
  unfold mapGet at h
  cases hf : m.find? (fun p => p.1 = key) with
  | none => rw [hf] at h; exact Option.noConfusion h
  | some p =>
    rw [hf] at h
    have hp : p ∈ m := List.mem_of_find?_eq_some hf
    have hk : p.1 = key := by
      have := List.find?_some hf
      simpa using this
    have hg : p.2 = g := Option.some.inj h
    have : (key, g) = p := by
      rw [← hk, ← hg]
    rw [this]
    exact hp

theorem goodMap_dedupKeys (valueKey : Str) (gClone : List Str)
    (hclone : ∀ w ∈ gClone, w = valueKey ∨ plainWord w) :
    ∀ (keys : List Str) (m : SynMap), GoodMap m →
      GoodMap (dedupKeys valueKey gClone keys m) := by
  intro keys
  induction keys with
  | nil => intro m hm; exact hm
  | cons key rest ih =>
    intro m hm
    simp only [dedupKeys]
    by_cases hk : key ≠ valueKey
    · rw [if_pos hk]
      apply ih
      apply goodMap_dedupInner valueKey key _ (fun h => hk h.symm) ?_ gClone m hclone hm
      intro w hw
      cases hget : mapGet m key with
      | none => rw [hget] at hw; exact absurd hw (by simp)
      | some og =>
        rw [hget] at hw
        have hent := hm _ (mapGet_entry hget)
        exact hent.2.1 w hw
    · rw [if_neg hk]
      exact ih m hm

theorem goodMap_dedupOuter :
    ∀ (values : List Str) (m : SynMap), GoodMap m →
      GoodMap (dedupOuter values m) := by
  intro values
  induction values with
  | nil => intro m hm; exact hm
  | cons value rest ih =>
    intro m hm
    simp only [dedupOuter]
    cases hget : mapGet m value with
    | none => exact ih m hm
    | some g =>
      apply ih
      apply goodMap_dedupKeys value g ?_ _ m hm
      have hent := hm _ (mapGet_entry hget)
      exact hent.2.1

theorem splitOn_chars {sep : Char} :
    ∀ (s : Str) (part : Str), part ∈ splitOn sep s →
      ∀ c ∈ part, c ∈ s ∧ ¬ c = sep := by
  intro s
  induction s with
  | nil =>
    intro part hp c hc
    simp only [splitOn, List.mem_singleton] at hp
    subst hp
    simp at hc
  | cons a rest ih =>
    intro part hp c hc
    simp only [splitOn] at hp
    by_cases ha : a = sep
    · rw [if_pos ha] at hp
      rcases List.mem_cons.mp hp with hp | hp
      · subst hp
        simp at hc
      · obtain ⟨h1, h2⟩ := ih part hp c hc
        exact ⟨List.mem_cons_of_mem _ h1, h2⟩
    · rw [if_neg ha] at hp
      cases hsp : splitOn sep rest with
      | nil =>
        rw [hsp] at hp
        rw [List.mem_singleton] at hp
        subst hp
        rw [List.mem_singleton] at hc
        subst hc
        exact ⟨List.mem_cons_self _ _, ha⟩
      | cons p ps =>
        rw [hsp] at hp
        rcases List.mem_cons.mp hp with hp | hp
        · subst hp
          rcases List.mem_cons.mp hc with rfl | hc2
          · exact ⟨List.mem_cons_self _ _, ha⟩
          · have hpmem : p ∈ splitOn sep rest := by
              rw [hsp]
              exact List.mem_cons_self _ _
            have := ih p hpmem c hc2
            exact ⟨List.mem_cons_of_mem _ this.1, this.2⟩
        · have hpmem : part ∈ splitOn sep rest := by
            rw [hsp]
            exact List.mem_cons_of_mem _ hp
          have := ih part hpmem c hc
          exact ⟨List.mem_cons_of_mem _ this.1, this.2⟩

theorem splitOn_no_sep {sep : Char} :
    ∀ (s : Str), ¬ sep ∈ s → splitOn sep s = [s] := by
  intro s
  induction s with
  | nil => intro _; rfl
  | cons a rest ih =>
    intro h
    simp only [splitOn]
    have ha : ¬ a = sep := fun heq => h (heq ▸ List.mem_cons_self a rest)
    rw [if_neg ha, ih (fun hm => h (List.mem_cons_of_mem _ hm))]

theorem jsTrim_subset (s : Str) : ∀ c ∈ jsTrim s, c ∈ s := by
  intro c hc
  unfold jsTrim at hc
  rw [List.mem_reverse] at hc
  have hc2 : c ∈ (s.dropWhile isJsSpace).reverse := (List.dropWhile_sublist _).subset hc
  rw [List.mem_reverse] at hc2
  exact (List.dropWhile_sublist _).subset hc2

theorem goodEntry_noSepGroup (value : Str) (hns : ¬ SEPARATOR ∈ value) :
    GoodEntry value (noSepGroup value) := by
  have hwords : ∀ w ∈ filterIgnorable (splitOn ' ' value), plainWord w := by
    intro w hw
    have hw2 : w ∈ splitOn ' ' value := (List.mem_filter.mp hw).1
    constructor
    · intro hsp
      exact (splitOn_chars value w hw2 ' ' hsp).2 rfl
    · intro hpp
      exact hns (splitOn_chars value w hw2 _ hpp).1
  unfold noSepGroup
  by_cases hidx : jsIndexOf (filterIgnorable (splitOn ' ' value)) value = -1
  · rw [if_pos hidx]
    refine ⟨Or.inr ⟨_, rfl⟩, ?_, ?_⟩
    · intro w hw
      rcases List.mem_cons.mp hw with rfl | hw
      · exact Or.inl rfl
      · exact Or.inr (hwords w hw)
    · intro hpv
      have hsplit : splitOn ' ' value = [value] := splitOn_no_sep value hpv.1
      have hfil : filterIgnorable (splitOn ' ' value) = [] := by
        have hnm : ¬ value ∈ filterIgnorable (splitOn ' ' value) :=
          (jsIndexOf_neg_iff _ _).mp hidx
        unfold filterIgnorable at hnm ⊢
        rw [hsplit] at hnm ⊢
        by_cases hig : isIgnorableWord (jsTrim (jsToLower value)) = true
        · simp [List.filter, hig]
        · exfalso
          apply hnm
          simp [List.filter, hig]
      rw [hfil]
      simp
  · rw [if_neg hidx]
    have hvmem : value ∈ filterIgnorable (splitOn ' ' value) := by
      by_contra hmem
      exact hidx ((jsIndexOf_neg_iff _ _).mpr hmem)
    have hvp : ¬ ' ' ∈ value := by
      have hw2 : value ∈ splitOn ' ' value := (List.mem_filter.mp hvmem).1
      intro hsp
      exact (splitOn_chars value value hw2 ' ' hsp).2 rfl
    have hsplit : splitOn ' ' value = [value] := splitOn_no_sep value hvp
    have hfil : filterIgnorable (splitOn ' ' value) = [value] := by
      unfold filterIgnorable at hvmem ⊢
      rw [hsplit] at hvmem ⊢
      by_cases hig : isIgnorableWord (jsTrim (jsToLower value)) = true
      · exfalso
        simp [List.filter, hig] at hvmem
      · simp [List.filter, hig]
    rw [hfil]
    exact ⟨Or.inr ⟨[], rfl⟩, by simp, fun _ => by simp⟩

theorem foldl_push_mem :
    ∀ (ws : List Str) (acc : List Str) (w2 : Str),
      w2 ∈ ws.foldl (fun acc w => if jsIndexOf acc w = -1 then acc ++ [w] else acc) acc →
      w2 ∈ acc ∨ w2 ∈ ws := by
  intro ws
  induction ws with
  | nil => intro acc w2 h; exact Or.inl h
  | cons w rest ih =>
    intro acc w2 h
    simp only [List.foldl_cons] at h
    by_cases hidx : jsIndexOf acc w = -1
    · rw [if_pos hidx] at h
      rcases ih _ w2 h with h2 | h2
      · rcases List.mem_append.mp h2 with h3 | h3
        · exact Or.inl h3
        · rw [List.mem_singleton] at h3
          subst h3
          exact Or.inr (List.mem_cons_self _ _)
      · exact Or.inr (List.mem_cons_of_mem _ h2)
    · rw [if_neg hidx] at h
      rcases ih _ w2 h with h2 | h2
      · exact Or.inl h2
      · exact Or.inr (List.mem_cons_of_mem _ h2)

theorem foldl_push_head :
    ∀ (ws : List Str) (v : Str) (t : List Str),
      ∃ t2, ws.foldl (fun acc w => if jsIndexOf acc w = -1 then acc ++ [w] else acc)
        (v :: t) = v :: t2 := by
  intro ws
  induction ws with
  | nil => intro v t; exact ⟨t, rfl⟩
  | cons w rest ih =>
    intro v t
    simp only [List.foldl_cons]
    by_cases hidx : jsIndexOf (v :: t) w = -1
    · rw [if_pos hidx]
      exact ih v (t ++ [w])
    · rw [if_neg hidx]
      exact ih v t

theorem sepGroup_mem (value : Str) (w2 : Str) (h : w2 ∈ sepGroup value) :
    w2 = value ∨ ∃ seg, seg ∈ splitOn SEPARATOR value ∧
      w2 ∈ filterIgnorable (splitOn ' ' (jsTrim seg)) := by
  unfold sepGroup at h
  suffices hgen : ∀ (segs : List Str) (acc : List Str) (w2 : Str),
      w2 ∈ segs.foldl (fun allValues segment =>
        (filterIgnorable (splitOn ' ' (jsTrim segment))).foldl
          (fun acc w => if jsIndexOf acc w = -1 then acc ++ [w] else acc) allValues) acc →
      w2 ∈ acc ∨ ∃ seg, seg ∈ segs ∧ w2 ∈ filterIgnorable (splitOn ' ' (jsTrim seg)) by
    rcases hgen (splitOn SEPARATOR value) [value] w2 h with h2 | h2
    · rw [List.mem_singleton] at h2
      exact Or.inl h2
    · exact Or.inr h2
  intro segs
  induction segs with
  | nil => intro acc w hw; exact Or.inl hw
  | cons seg rest ih =>
    intro acc w hw
    simp only [List.foldl_cons] at hw
    rcases ih _ w hw with h2 | ⟨seg2, hseg2, hwseg2⟩
    · rcases foldl_push_mem _ _ _ h2 with h3 | h3
      · exact Or.inl h3
      · exact Or.inr ⟨seg, List.mem_cons_self _ _, h3⟩
    · exact Or.inr ⟨seg2, List.mem_cons_of_mem _ hseg2, hwseg2⟩

theorem sepGroup_head (value : Str) : ∃ t, sepGroup value = value :: t := by
  unfold sepGroup
  suffices hgen : ∀ (segs : List Str) (v : Str) (t : List Str),
      ∃ t2, segs.foldl (fun allValues segment =>
        (filterIgnorable (splitOn ' ' (jsTrim segment))).foldl
          (fun acc w => if jsIndexOf acc w = -1 then acc ++ [w] else acc) allValues)
        (v :: t) = v :: t2 by
    exact hgen (splitOn SEPARATOR value) value []
  intro segs
  induction segs with
  | nil => intro v t; exact ⟨t, rfl⟩
  | cons seg rest ih =>
    intro v t
    simp only [List.foldl_cons]
    obtain ⟨t2, ht2⟩ := foldl_push_head (filterIgnorable (splitOn ' ' (jsTrim seg))) v t
    rw [ht2]
    exact ih v t2

theorem goodEntry_sepGroup (value : Str) (hs : SEPARATOR ∈ value) :
    GoodEntry value (sepGroup value) := by
  obtain ⟨t, ht⟩ := sepGroup_head value
  refine ⟨Or.inr ⟨t, ht⟩, ?_, ?_⟩
  · intro w hw
    rcases sepGroup_mem value w hw with h | ⟨seg, hseg, hwseg⟩
    · exact Or.inl h
    · right
      have hw2 : w ∈ splitOn ' ' (jsTrim seg) := (List.mem_filter.mp hwseg).1
      constructor
      · intro hsp
        exact (splitOn_chars _ w hw2 ' ' hsp).2 rfl
      · intro hpp
        have hc : SEPARATOR ∈ jsTrim seg := (splitOn_chars _ w hw2 _ hpp).1
        have hc2 : SEPARATOR ∈ seg := jsTrim_subset seg _ hc
        exact (splitOn_chars value seg hseg _ hc2).2 rfl
  · intro hpv
    exact absurd hs hpv.2

theorem goodMap_mapSet (m : SynMap) (key : Str) (v : List Str)
    (hm : GoodMap m) (hv : GoodEntry key v) : GoodMap (mapSet m key v) := by
  unfold mapSet
  by_cases hc : m.any (fun p => p.1 = key) = true
  · rw [if_pos hc]
    intro p hp
    simp only [List.mem_map] at hp
    obtain ⟨q, hq, hpq⟩ := hp
    by_cases hqk : q.1 = key
    · rw [if_pos hqk] at hpq
      subst hpq
      exact hv
    · rw [if_neg hqk] at hpq
      subst hpq
      exact hm q hq
  · rw [if_neg hc]
    intro p hp
    rcases List.mem_append.mp hp with hp | hp
    · exact hm p hp
    · rw [List.mem_singleton] at hp
      subst hp
      exact hv

theorem goodMap_findAllStep (m : SynMap) (value0 : Str) (hm : GoodMap m) :
    GoodMap (findAllStep m value0) := by
  unfold findAllStep
  by_cases hidx : jsIndexOf (jsTrim value0) SEPARATOR = -1
  · rw [if_pos hidx]
    exact goodMap_mapSet _ _ _ hm (goodEntry_noSepGroup _ ((jsIndexOf_neg_iff _ _).mp hidx))
  · rw [if_neg hidx]
    refine goodMap_mapSet _ _ _ hm (goodEntry_sepGroup _ ?_)
    by_contra hmem
    exact hidx ((jsIndexOf_neg_iff _ _).mpr hmem)

theorem goodMap_findAllSynonyms (values : List Str) : GoodMap (findAllSynonyms values) := by
  unfold findAllSynonyms
  have hgen : ∀ (vs : List Str) (m : SynMap), GoodMap m → GoodMap (vs.foldl findAllStep m) := by
    intro vs
    induction vs with
    | nil => intro m hm; exact hm
    | cons v rest ih =>
      intro m hm
      simp only [List.foldl_cons]
      exact ih _ (goodMap_findAllStep m v hm)
  exact hgen values [] (fun p hp => absurd hp (List.not_mem_nil p))

theorem joinSep_ne_nil (sep : Char) (k : Str) (t : List Str) (hk : k ≠ []) :
    joinSep sep (k :: t) ≠ [] := by
  cases t with
  | nil => simpa [joinSep] using hk
  | cons p ps => simp [joinSep, hk]

/-- C8 (amended): for every input list of canonical answer strings each of
which is non-empty after trimming, every entry of `generateSynonyms` is a
non-empty string: a surviving group is emitted with its full canonical phrase
at its head, and an emptied group is replaced by the trimmed canonical string
as a single-element fallback. -/
theorem generateSynonyms_nonempty (values : List Str)
    (hv : ∀ v ∈ values, jsTrim v ≠ []) :
    ∀ r ∈ generateSynonyms values, r ≠ [] := by
  intro r hr
  simp only [generateSynonyms, List.mem_map] at hr
  obtain ⟨v, hvmem, rfl⟩ := hr
  have hgood : GoodMap (dedupOuter values (findAllSynonyms values)) :=
    goodMap_dedupOuter values _ (goodMap_findAllSynonyms values)
  cases hget : mapGet (dedupOuter values (findAllSynonyms values)) (jsTrim v) with
  | none =>
    simp only [hget]
    exact hv v hvmem
  | some g =>
    simp only [hget]
    by_cases hlen : g.length ≠ 0
    · rw [if_pos hlen]
      have hent := hgood _ (mapGet_entry hget)
      rcases hent.1 with hnil | ⟨t, ht⟩
      · have hg : g = [] := hnil
        subst hg
        simp at hlen
      · rw [show g = jsTrim v :: t from ht]
        exact joinSep_ne_nil _ _ _ (hv v hvmem)
    · rw [if_neg hlen]
      exact hv v hvmem

/-- C8 witness: a well-formed two-answer input; both emitted entries are
non-empty. -/
theorem generateSynonyms_nonempty_witness :
    (str "Paris|City of Light|Paris|City|Light" ≠ []) ∧ (str "London" ≠ []) ∧
    ∀ r ∈ generateSynonyms [str "Paris|City of Light", str "London"], r ≠ [] :=
  ⟨by decide, by decide,
    generateSynonyms_nonempty [str "Paris|City of Light", str "London"] (by decide)⟩

/-- C8 counterexample: on the input consisting of one empty canonical string,
`generateSynonyms` returns the empty string as its only entry (the fallback
is the trimmed canonical string, which is itself empty), so the claim that
every entry is non-empty fails as stated. -/
theorem generateSynonyms_empty_entry_cex :
    generateSynonyms [str ""] = [str ""] ∧ (str "").length = 0 := by
  constructor
  · decide
  · decide

/-- C1: the code evaluated at the failing input `["w", "w z w"]`: the group
of `"w"` is emptied by cross-deduplication and restored by the empty-group
fallback, while the group of `"w z w"` keeps its duplicate second occurrence
of `"w"`, so the returned groups both contain the matchable word `"w"` —
cross-deduplication does not make groups pairwise disjoint. -/
theorem generateSynonyms_shared_word_cex :
    generateSynonyms [str "w", str "w z w"] = [str "w", str "w z w|z|w"] ∧
    str "w" ∈ getSynonyms ((generateSynonyms [str "w", str "w z w"]).getD 0 []) ∧
    str "w" ∈ getSynonyms ((generateSynonyms [str "w", str "w z w"]).getD 1 []) := by
  refine ⟨by decide, by decide, by decide⟩
